import Mathlib

/-!
Shallow embedding of the Rummikub engine (src/piece.py, src/play.py,
src/board.py) and verification of the specification claims.

Conventions:
* Python ints are `Nat`/`Int`; Python lists are `List`.
* A Python method that can raise returns `Option`/a sum-like result; `none`
  (or a dedicated constructor) marks the raised exception.
* The keyword argument named after the relaxed validity mode in the source
  is rendered as `relax` (its Python name clashes with a Lean keyword).
* The process-wide memoization caches of `Play` memoize a pure function and
  are omitted from the model of `Play`; the solver's result cache, which is
  observable through `solve`, is modelled explicitly in `SolverState`.
-/

namespace Rummikub

/-- The four colors of `Piece.colors` in src/piece.py. -/
inductive Color where
  | red
  | blue
  | yellow
  | black
deriving DecidableEq, Repr

/-- First character of the color name, as compared by `Piece.__lt__`
(`self.color[0]`).  Note `"blue"[0] = "black"[0] = 'b'`. -/
def Color.firstChar : Color → Char
  | .red => 'r'
  | .blue => 'b'
  | .yellow => 'y'
  | .black => 'b'

/-- A piece of the rummikub game (src/piece.py).  The constructor's range
checks (`color ∈ colors`, `1 ≤ number ≤ 13`) are captured by `Piece.wf`. -/
structure Piece where
  color : Color
  number : Nat
deriving DecidableEq, Repr

/-- The constructor precondition of `Piece.__init__`: the number is
between 1 and `Piece.max_number = 13`. -/
def Piece.wf (p : Piece) : Prop := 1 ≤ p.number ∧ p.number ≤ 13

instance (p : Piece) : Decidable p.wf := by
  unfold Piece.wf; infer_instance

/-- `Piece.__lt__`: lexicographic comparison of `(color[0], number)`,
with characters compared by code point. -/
def Piece.ltb (a b : Piece) : Bool :=
  a.color.firstChar.toNat < b.color.firstChar.toNat ||
    (a.color.firstChar.toNat == b.color.firstChar.toNat && a.number < b.number)

/-- The "may precede" relation realized by Python's stable `list.sort()`
under `Piece.__lt__`: `a` may stay before `b` iff `b` is not strictly less
than `a`.  A stable sort with strict comparison `ltb` produces exactly the
sorted-by-`pieceLe` stable permutation. -/
def pieceLe (a b : Piece) : Prop := ¬ (Piece.ltb b a = true)

instance : DecidableRel pieceLe := fun _ _ => instDecidableNot

/-- Numeric key realizing `Piece.__lt__`'s comparison tuple. -/
def Piece.key (p : Piece) : Nat × Nat := (p.color.firstChar.toNat, p.number)

/-- `list.sort()` on a piece list: the stable ascending reordering under
`Piece.__lt__`, realized as insertion sort with `pieceLe`. -/
def sortPieces (l : List Piece) : List Piece := List.insertionSort pieceLe l

/-- `list.sort()` on a number list (`numbers.sort()` in
`is_valid_straight`); `Nat.le` is a total order, so stability is moot. -/
def sortNumbers (l : List Nat) : List Nat := List.insertionSort (· ≤ ·) l

/-- A collection of pieces forming a play on the board (src/play.py).
The mutable per-instance `_is_valid` memo and the process-wide
`play_valid_cache` memoize the pure validity function and are not part of
the value.  (The per-instance memo does not key on the mode flag, but it
is reset by every mutation and each live instance is queried under a
single flag value at every call site, so omitting it is faithful.) -/
structure Play where
  pieces : List Piece
deriving DecidableEq, Repr

/-- `Play.__init__`: stores the given pieces and sorts them. -/
def Play.make (pieces : List Piece) : Play := ⟨sortPieces pieces⟩

/-- `Play.add_piece`: append the piece, then re-sort. -/
def Play.add_piece (pl : Play) (piece : Piece) : Play :=
  ⟨sortPieces (pl.pieces ++ [piece])⟩

/-- `Play.copy`: `Play(self.pieces[:])` (re-runs the sorting constructor). -/
def Play.copy (pl : Play) : Play := Play.make pl.pieces

/-- `all(piece.color == self.pieces[0].color for piece in self.pieces)`:
the indexing `pieces[0]` happens inside the generator, so the empty list
yields `True` without evaluating it. -/
def sameColorAll (pieces : List Piece) : Bool :=
  match pieces with
  | [] => true
  | p0 :: _ => pieces.all (fun q => q.color == p0.color)

/-- `all(piece.number == self.pieces[0].number for piece in self.pieces)`,
with the same empty-list behaviour. -/
def sameNumberAll (pieces : List Piece) : Bool :=
  match pieces with
  | [] => true
  | p0 :: _ => pieces.all (fun q => q.number == p0.number)

/-- `Play.is_valid_straight`.  `none` is the `IndexError` raised by the
eager evaluation of `numbers[0]` in `enumerate(numbers, numbers[0])` when
the piece list is empty (only reachable with the relaxed size check). -/
def Play.is_valid_straight (pl : Play) (relax : Bool) : Option Bool :=
  if !relax && pl.pieces.length < 3 then some false
  else if !sameColorAll pl.pieces then some false
  else
    match sortNumbers (pl.pieces.map Piece.number) with
    | [] => none
    | n0 :: rest => some ((n0 :: rest).enum.all (fun ix => ix.2 == n0 + ix.1))

/-- `Play.is_valid_collection`.  `len(set(colors))` is the length of the
color list with duplicates removed. -/
def Play.is_valid_collection (pl : Play) (relax : Bool) : Bool :=
  if !relax && pl.pieces.length < 3 then false
  else if !sameNumberAll pl.pieces then false
  else pl.pieces.length == (pl.pieces.map Piece.color).dedup.length

/-- `Play.is_valid`: `is_valid_straight or is_valid_collection`, with the
straight check evaluated first (its exception propagates). -/
def Play.is_valid (pl : Play) (relax : Bool) : Option Bool :=
  match pl.is_valid_straight relax with
  | none => none
  | some true => some true
  | some false => some (pl.is_valid_collection relax)

/-- `is_valid()` with the default non-relaxed mode; total, because the
size guard rejects the empty play before the indexing. -/
def Play.is_validNP (pl : Play) : Bool :=
  match pl.is_valid false with
  | some b => b
  | none => false

/-- `Play.can_add_piece`: validity of a copy with the piece appended.  The
appended play is nonempty, so the inner `is_valid` cannot raise. -/
def Play.can_add_piece (pl : Play) (piece : Piece) (relax : Bool) : Bool :=
  match (pl.copy.add_piece piece).is_valid relax with
  | some b => b
  | none => false

/-- The play area for a game of rummikub (src/board.py). -/
structure Board where
  plays : List Play
  pieces : List Piece
  num_patial_plays : Int
deriving DecidableEq, Repr

/-- `Board.__init__`. -/
def Board.empty : Board := ⟨[], [], 0⟩

/-- `Board.__eq__` compares only `self.plays` (and `__hash__` hashes only
the plays); `pieces` and the counter are ignored. -/
def Board.beq (a b : Board) : Bool := a.plays == b.plays

/-- `Board.copy`: structural copy; each play is copied through the sorting
constructor `Play(self.pieces[:])`. -/
def Board.copy (b : Board) : Board :=
  { plays := b.plays.map Play.copy
    pieces := b.pieces
    num_patial_plays := b.num_patial_plays }

/-- `Board.add_play`: append the play, bump the partial counter if it is
not valid (non-relaxed), extend the flattened piece list. -/
def Board.add_play (b : Board) (play : Play) : Board :=
  { plays := b.plays ++ [play]
    pieces := b.pieces ++ play.pieces
    num_patial_plays := b.num_patial_plays + (if play.is_validNP then 0 else 1) }

/-- `Board.add_piece`: append a piece to the play at `play_index`.
`none` models the two possible exceptions: the `IndexError` of
`self.plays[play_index]` and the `RuntimeError` raised when the play was
valid before the append and invalid after it. -/
def Board.add_piece (b : Board) (piece : Piece) (play_index : Nat) : Option Board :=
  match b.plays.get? play_index with
  | none => none
  | some pl =>
    let was := pl.is_validNP
    let pl' := pl.add_piece piece
    let isv := pl'.is_validNP
    if was && !isv then none
    else some
      { plays := b.plays.set play_index pl'
        pieces := b.pieces ++ [piece]
        num_patial_plays := b.num_patial_plays - (if !was && isv then 1 else 0) }

/-- `Board.get_places_for_piece`: indices of the plays that can accept the
piece, in ascending order. -/
def Board.get_places_for_piece (b : Board) (piece : Piece) (relax : Bool) : List Nat :=
  b.plays.enum.filterMap
    (fun ipl => if ipl.2.can_add_piece piece relax then some ipl.1 else none)

/-- `Board.get_neighbors`: a copy of the board with the piece appended, for
every accepting play index.  At a place reported by
`get_places_for_piece` the inner `add_piece` never raises
(`add_piece_at_place_some` below), so dropping `none` is exact. -/
def Board.get_neighbors (b : Board) (piece : Piece) (relax : Bool) : List Board :=
  (b.get_places_for_piece piece relax).filterMap
    (fun i => b.copy.add_piece piece i)

/-- `Board.is_valid`: the partial-play counter is zero. -/
def Board.is_valid (b : Board) : Bool := b.num_patial_plays == 0

/-- A node of the solver's depth-first search (src/board.py,
`SearchNode`).  The parent reference is pure bookkeeping. -/
inductive SearchNode where
  | mk (board : Board) (pieces : List Piece) (parent : Option SearchNode)
      (incomplete_depth : Nat)

def SearchNode.board : SearchNode → Board
  | .mk b _ _ _ => b

def SearchNode.pieces : SearchNode → List Piece
  | .mk _ ps _ _ => ps

def SearchNode.incomplete_depth : SearchNode → Nat
  | .mk _ _ _ d => d

/-- `BoardSolver._is_board_fesable`.  `numbers_by_color` is the presence
map of the pool; for well-formed pieces (numbers in 1..13) the guarded
array reads are exactly pool-membership queries. -/
def presentIn (pieces : List Piece) (c : Color) (n : Nat) : Bool :=
  pieces.any (fun q => q.color == c && q.number == n)

def straightFesable (pieces : List Piece) (p : Piece) : Bool :=
  (!(p.number == 1) && presentIn pieces p.color (p.number - 1)) ||
    (!(p.number == 13) && presentIn pieces p.color (p.number + 1))

def combinationFesable (pieces : List Piece) (p : Piece) : Bool :=
  3 ≤ ([Color.red, Color.blue, Color.yellow, Color.black].countP
    (fun c => presentIn pieces c p.number))

def BoardSolver.is_board_fesable (pieces : List Piece) : Bool :=
  pieces.all (fun p => straightFesable pieces p || combinationFesable pieces p)

/-- Outcome of one `BoardSolver.solve` call.  `noSolution` is the raised
`RuntimeError("No solution found.")`; `fuelOut` is a model artifact for
exhausted recursion fuel (the Python loop always terminates because every
pushed node carries a board newly added to the finite explored set). -/
inductive SolveOutcome where
  | found (b : Board)
  | noSolution
  | fuelOut
deriving DecidableEq, Repr

/-- The observable class-level state of `BoardSolver`: the result cache
(an association list standing for the dict keyed by `tuple(pieces)`, most
recent binding first) and the statistics counters, named as in the source
except `two_open_skipped`, which renders the source counter for skipped
candidates with two or more partial plays (its Python name starts with a
Lean keyword). -/
structure SolverState where
  solver_cache : List (List Piece × Option Board)
  nodes_explored : Nat
  board_cache_hits : Nat
  node_cache_hits : Nat
  two_open_skipped : Nat
  incomplete_depth_skipped : Nat
  infesable_board_skipped : Nat
  boards_explored : Nat
deriving DecidableEq, Repr

def SolverState.empty : SolverState := ⟨[], 0, 0, 0, 0, 0, 0, 0⟩

/-- Inner loop of the neighbor scan (`for neighbor in search_space`).
Returns the updated explored set, the accepted nodes consed in encounter
order (so the head is the most recently accepted, matching the LIFO pop of
the Python queue's tail), and the updated counters. -/
def scanNeighbors (node : SearchNode) (other : List Piece)
    (space : List Board) (explored : List Board) (acc : List SearchNode)
    (st : SolverState) : List Board × List SearchNode × SolverState :=
  match space with
  | [] => (explored, acc, st)
  | nb :: rest =>
    if explored.any (fun e => Board.beq e nb) then
      scanNeighbors node other rest explored acc
        { st with node_cache_hits := st.node_cache_hits + 1 }
    else if 1 < nb.num_patial_plays then
      scanNeighbors node other rest explored acc
        { st with two_open_skipped := st.two_open_skipped + 1 }
    else
      let explored' := nb :: explored
      let d := if nb.is_valid then 0 else node.incomplete_depth + 1
      if 3 ≤ d then
        scanNeighbors node other rest explored' acc
          { st with incomplete_depth_skipped := st.incomplete_depth_skipped + 1 }
      else
        scanNeighbors node other rest explored'
          (SearchNode.mk nb other (some node) d :: acc) st

/-- Outer loop over the remaining pieces (`for piece in pieces`).
`cursor` walks the node's piece list; `remove` deletes the first equal
occurrence from the full list.  When no play accepts the piece, a single
fallback board with a fresh singleton play is scanned instead. -/
def scanPieces (node : SearchNode) (cursor : List Piece)
    (explored : List Board) (acc : List SearchNode) (st : SolverState) :
    List Board × List SearchNode × SolverState :=
  match cursor with
  | [] => (explored, acc, st)
  | piece :: rest =>
    let other := node.pieces.erase piece
    let space := node.board.get_neighbors piece true
    let space := if space.isEmpty then
        [node.board.copy.add_play (Play.make [piece])]
      else space
    let r := scanNeighbors node other space explored acc st
    scanPieces node rest r.1 r.2.1 r.2.2

/-- The DFS loop of `BoardSolver.solve` (`while queue:`), with explicit
fuel.  The head of `queue` is the Python list's tail (`queue.pop(-1)`).
Returns the outcome, the state, and the final explored set. -/
def solveLoop (key : List Piece) : Nat → List Board → List SearchNode →
    SolverState → SolveOutcome × SolverState × List Board
  | 0, explored, _, st => (.fuelOut, st, explored)
  | Nat.succ fuel, explored, queue, st =>
    match queue with
    | [] => (.noSolution, st, explored)
    | node :: rest =>
      let st := { st with nodes_explored := st.nodes_explored + 1 }
      if node.pieces.isEmpty && node.incomplete_depth == 0 then
        (.found node.board,
          { st with solver_cache := (key, some node.board) :: st.solver_cache },
          explored)
      else
        let r := scanPieces node node.pieces explored [] st
        solveLoop key fuel r.1 (r.2.1 ++ rest) r.2.2

/-- `BoardSolver.solve`, also exposing the explored set of the search.
The cache key is `tuple(pieces)` — the input list as given, not sorted. -/
def BoardSolver.solveFull (pieces : List Piece) (st : SolverState)
    (fuel : Nat) : SolveOutcome × SolverState × List Board :=
  if pieces.length < 3 then (.noSolution, st, [])
  else
    match List.lookup pieces st.solver_cache with
    | some entry =>
      let st := { st with board_cache_hits := st.board_cache_hits + 1 }
      match entry with
      | none => (.noSolution, st, [])
      | some b => (.found b, st, [])
    | none =>
      let st := { st with solver_cache := (pieces, none) :: st.solver_cache }
      if !BoardSolver.is_board_fesable pieces then
        (.noSolution,
          { st with infesable_board_skipped := st.infesable_board_skipped + 1 },
          [])
      else
        let st := { st with boards_explored := st.boards_explored + 1 }
        solveLoop pieces fuel []
          [SearchNode.mk Board.empty pieces none 0] st

/-- `BoardSolver.solve` proper: outcome and state. -/
def BoardSolver.solve (pieces : List Piece) (st : SolverState) (fuel : Nat) :
    SolveOutcome × SolverState :=
  ((BoardSolver.solveFull pieces st fuel).1, (BoardSolver.solveFull pieces st fuel).2.1)

/-- `BoardSolver.insert`: flatten the board's plays, append the new
pieces, and delegate to `solve`. -/
def BoardSolver.insert (b : Board) (pieces : List Piece) (st : SolverState)
    (fuel : Nat) : SolveOutcome × SolverState :=
  BoardSolver.solve ((b.plays.map Play.pieces).flatten ++ pieces) st fuel

/-! ### Validity characterization (claims C3, C10) -/

/-- The spec's run condition: size at least 3 unless relaxed; all pieces of
one color; the sorted numbers are one contiguous ascending sequence (no
gap, no duplicate), i.e. a `List.range'` block. -/
def IsRunSpec (pieces : List Piece) (relax : Bool) : Prop :=
  (relax = true ∨ 3 ≤ pieces.length) ∧
    (∀ p ∈ pieces, ∀ q ∈ pieces, p.color = q.color) ∧
    ∃ n0, sortNumbers (pieces.map Piece.number) = List.range' n0 pieces.length

/-- The spec's set condition: size at least 3 unless relaxed; all pieces of
one number; pairwise distinct colors. -/
def IsSetSpec (pieces : List Piece) (relax : Bool) : Prop :=
  (relax = true ∨ 3 ≤ pieces.length) ∧
    (∀ p ∈ pieces, ∀ q ∈ pieces, p.number = q.number) ∧
    (pieces.map Piece.color).Nodup

/-! ### Derived definitions used by the claims -/

/-- Iterated `add_piece`. -/
def Play.addAll (pl : Play) (ps : List Piece) : Play := ps.foldl Play.add_piece pl

/-- A play built the way the program builds plays: constructed from an
initial list, then extended one `add_piece` at a time. -/
def Play.build (init rest : List Piece) : Play := (Play.make init).addAll rest

/-- No two distinct pieces of the list are tied under `Piece.__lt__`'s
comparison key (the only such ties are a blue piece and a black piece with
the same number, since both color names start with the letter b). -/
def NoOrderTies (l : List Piece) : Prop :=
  ∀ a ∈ l, ∀ b ∈ l, a.key = b.key → a = b

instance (l : List Piece) : Decidable (NoOrderTies l) := by
  unfold NoOrderTies; infer_instance

/-- Model of the color string fed to `hash((self.color, self.number))`. -/
def Color.code : Color → Nat
  | .red => 0
  | .blue => 1
  | .yellow => 2
  | .black => 3

/-- Model of `Piece.__hash__`: a deterministic function of (color, number). -/
def pieceHash (p : Piece) : Nat := p.color.code * 16 + p.number

/-- Model of `Play.__hash__ = hash(tuple(self.pieces))`: Python's tuple
hash is some fixed deterministic function of the element hashes; any such
function serves the claims, which only use that it is a function of the
(canonicalized) piece sequence. -/
def playHash (pl : Play) : Nat :=
  pl.pieces.foldl (fun h p => h * 1000003 + pieceHash p) 7

/-- Number of plays on a board that are invalid under the non-relaxed
rules ("partial" plays). -/
def countInvalid (plays : List Play) : Nat :=
  plays.countP (fun pl => !pl.is_validNP)

/-- Representation invariant of `Board`: every play's piece list is
sorted (all plays are created by the sorting constructor and mutated only
by the sorting `add_piece`), the `num_patial_plays` counter counts the
invalid plays, and the flattened piece list holds exactly the pieces of
the plays. -/
def BoardInv (b : Board) : Prop :=
  (∀ pl ∈ b.plays, List.Sorted pieceLe pl.pieces) ∧
    b.num_patial_plays = (countInvalid b.plays : Int) ∧
    List.Perm b.pieces (b.plays.map Play.pieces).flatten

/-- Boards reachable from `Board()` by the public mutators: adding a
freshly constructed play, a non-raising `add_piece`, or `copy`. -/
inductive Reach : Board → Prop where
  | empty : Reach Board.empty
  | add_play (b : Board) (l : List Piece) : Reach b → Reach (b.add_play (Play.make l))
  | add_piece (b b' : Board) (piece : Piece) (i : Nat) :
      Reach b → b.add_piece piece i = some b' → Reach b'
  | copy (b : Board) : Reach b → Reach b.copy

/-- Soundness of the solver's result cache: every cached success holds a
board whose plays are all valid and use exactly the key's pieces.  Within
the model the cache is only ever written by `solve` itself, which
maintains this; Python additionally unpickles the cache from disk. -/
def CacheSound (st : SolverState) : Prop :=
  ∀ e ∈ st.solver_cache, ∀ b, e.2 = some b →
    (∀ pl ∈ b.plays, pl.is_validNP = true) ∧
      List.Perm (b.plays.map Play.pieces).flatten e.1

/-- The input multiset admits an arrangement into valid (non-relaxed)
plays. -/
def Arrangeable (pieces : List Piece) : Prop :=
  ∃ plays : List Play, (∀ pl ∈ plays, pl.is_validNP = true) ∧
    List.Perm (plays.map Play.pieces).flatten pieces

/-- Invariant of one search node: its board satisfies the representation
invariant, has at most one partial play, together with the remaining
pieces it accounts for exactly the input multiset, and depth 0 certifies a
complete board. -/
def NodeInv (input : List Piece) (n : SearchNode) : Prop :=
  BoardInv n.board ∧ countInvalid n.board.plays ≤ 1 ∧
    List.Perm (n.board.pieces ++ n.pieces) input ∧
    (n.incomplete_depth = 0 → countInvalid n.board.plays = 0)

/-- Invariant of the explored set. -/
def ExploredInv (explored : List Board) : Prop :=
  ∀ b ∈ explored, BoardInv b ∧ countInvalid b.plays ≤ 1

/-- The spec's run option for a pooled piece: a same-color piece one
number below or above it is present in the pool. -/
def hasRunNeighbor (pieces : List Piece) (p : Piece) : Prop :=
  ∃ q ∈ pieces, q.color = p.color ∧
    (q.number + 1 = p.number ∨ q.number = p.number + 1)

/-- The spec's set option for a pooled piece: at least two colors other
than its own carry its number in the pool (so three same-number
distinct-color pieces exist, the piece itself included). -/
def hasTwoOtherColors (pieces : List Piece) (p : Piece) : Prop :=
  ∃ c1 c2 : Color, c1 ≠ p.color ∧ c2 ≠ p.color ∧ c1 ≠ c2 ∧
    (∃ q ∈ pieces, q.color = c1 ∧ q.number = p.number) ∧
    (∃ q ∈ pieces, q.color = c2 ∧ q.number = p.number)

/-- A function on the four colors given by its value table; used to reduce
counting arguments over the color list to finite case analysis. -/
def colorTable (fr fb fy fk : Bool) : Color → Bool
  | .red => fr
  | .blue => fb
  | .yellow => fy
  | .black => fk

instance : Fintype Color :=
  ⟨⟨{Color.red, Color.blue, Color.yellow, Color.black}, by decide⟩,
    by intro x; cases x <;> decide⟩

/-! ### Theorems -/

theorem Piece.ltb_iff (a b : Piece) :
    Piece.ltb a b = true ↔
      a.key.1 < b.key.1 ∨ (a.key.1 = b.key.1 ∧ a.key.2 < b.key.2) := by
  simp [Piece.ltb, Piece.key, Bool.or_eq_true, Bool.and_eq_true,
    Nat.lt_irrefl, beq_iff_eq, decide_eq_true_iff]

theorem pieceLe_iff (a b : Piece) :
    pieceLe a b ↔
      a.key.1 < b.key.1 ∨ (a.key.1 = b.key.1 ∧ a.key.2 ≤ b.key.2) := by
  rw [pieceLe, Piece.ltb_iff]
  omega

instance : IsTotal Piece pieceLe := by
  constructor
  intro a b
  rw [pieceLe_iff, pieceLe_iff]
  omega

instance : IsTrans Piece pieceLe := by
  constructor
  intro a b c hab hbc
  rw [pieceLe_iff] at *
  omega

theorem sortPieces_perm (l : List Piece) : List.Perm (sortPieces l) l :=
  List.perm_insertionSort pieceLe l

theorem sortPieces_sorted (l : List Piece) : List.Sorted pieceLe (sortPieces l) :=
  List.sorted_insertionSort pieceLe l

theorem sortPieces_of_sorted {l : List Piece} (h : List.Sorted pieceLe l) :
    sortPieces l = l :=
  List.Sorted.insertionSort_eq h

theorem sortPieces_idem (l : List Piece) : sortPieces (sortPieces l) = sortPieces l :=
  sortPieces_of_sorted (sortPieces_sorted l)

theorem sortNumbers_perm (l : List Nat) : List.Perm (sortNumbers l) l :=
  List.perm_insertionSort _ l

theorem sortNumbers_length (l : List Nat) : (sortNumbers l).length = l.length :=
  (sortNumbers_perm l).length_eq

theorem sameColorAll_iff {pieces : List Piece} (h : pieces ≠ []) :
    sameColorAll pieces = true ↔ ∀ p ∈ pieces, ∀ q ∈ pieces, p.color = q.color := by
  match pieces, h with
  | p0 :: rest, _ =>
    simp only [sameColorAll, List.all_eq_true, beq_iff_eq]
    constructor
    · intro hall p hp q hq
      rw [hall p hp, hall q hq]
    · intro hpq q hq
      exact hpq q hq p0 (List.mem_cons_self p0 rest)

theorem sameNumberAll_iff {pieces : List Piece} (h : pieces ≠ []) :
    sameNumberAll pieces = true ↔ ∀ p ∈ pieces, ∀ q ∈ pieces, p.number = q.number := by
  match pieces, h with
  | p0 :: rest, _ =>
    simp only [sameNumberAll, List.all_eq_true, beq_iff_eq]
    constructor
    · intro hall p hp q hq
      rw [hall p hp, hall q hq]
    · intro hpq q hq
      exact hpq q hq p0 (List.mem_cons_self p0 rest)

theorem enum_all_offset_iff (ns : List Nat) (n0 : Nat) :
    (ns.enum.all fun ix => ix.2 == n0 + ix.1) = true ↔
      ∀ i (h : i < ns.length), ns[i] = n0 + i := by
  rw [List.all_eq_true]
  exact Iff.trans List.forall_mem_enum (by simp)

theorem eq_range'_iff (ns : List Nat) (n0 : Nat) :
    (∀ i (h : i < ns.length), ns[i] = n0 + i) ↔ ns = List.range' n0 ns.length := by
  constructor
  · intro h
    apply List.ext_getElem
    · simp
    · intro i h1 h2
      rw [h i h1, List.getElem_range'_1]
  · intro h i hi
    rw [List.getElem_of_eq h hi, List.getElem_range'_1]

/-- The code's straight check never raises on a nonempty play. -/
theorem is_valid_straight_isSome {pl : Play} (h : pl.pieces ≠ []) (relax : Bool) :
    ∃ b, pl.is_valid_straight relax = some b := by
  have hlen : (sortNumbers (pl.pieces.map Piece.number)).length = pl.pieces.length := by
    rw [sortNumbers_length, List.length_map]
  have hne : sortNumbers (pl.pieces.map Piece.number) ≠ [] := by
    intro hc
    rw [hc] at hlen
    exact h (List.length_eq_zero.1 hlen.symm)
  obtain ⟨n0, rest, hns⟩ := List.exists_cons_of_ne_nil hne
  unfold Play.is_valid_straight
  rw [hns]
  split
  · exact ⟨false, rfl⟩
  split
  · exact ⟨false, rfl⟩
  · exact ⟨_, rfl⟩

theorem head_of_eq_range' {n0 m x : Nat} {xs : List Nat}
    (h : x :: xs = List.range' n0 m) : x = n0 := by
  cases m with
  | zero => simp [List.range'] at h
  | succ k =>
    rw [List.range'_succ] at h
    exact (List.cons.injEq x xs n0 _ ▸ h).1

theorem is_valid_straight_true_iff {pl : Play} (h : pl.pieces ≠ []) (relax : Bool) :
    pl.is_valid_straight relax = some true ↔ IsRunSpec pl.pieces relax := by
  have hlen : (sortNumbers (pl.pieces.map Piece.number)).length = pl.pieces.length := by
    rw [sortNumbers_length, List.length_map]
  have hne : sortNumbers (pl.pieces.map Piece.number) ≠ [] := by
    intro hc
    rw [hc] at hlen
    exact h (List.length_eq_zero.1 hlen.symm)
  obtain ⟨n0, rest, hns⟩ := List.exists_cons_of_ne_nil hne
  rw [hns] at hlen
  unfold Play.is_valid_straight IsRunSpec
  rw [hns]
  split
  · rename_i hsz
    simp only [Bool.and_eq_true, Bool.not_eq_true', decide_eq_true_iff] at hsz
    constructor
    · intro hc; simp at hc
    · intro hc
      rcases hc.1 with h1 | h1
      · rw [h1] at hsz; simp at hsz
      · omega
  split
  · rename_i hsz hcol
    simp only [Bool.not_eq_true'] at hcol
    constructor
    · intro hc; simp at hc
    · intro hc
      rw [(sameColorAll_iff h).2 hc.2.1] at hcol
      simp at hcol
  · rename_i hsz hcol
    simp only [Bool.not_eq_true', Bool.not_eq_false] at hcol
    simp only [Bool.and_eq_true, Bool.not_eq_true', decide_eq_true_iff, not_and] at hsz
    simp only [Option.some.injEq]
    rw [enum_all_offset_iff (n0 :: rest) n0, eq_range'_iff (n0 :: rest) n0]
    constructor
    · intro hc
      refine ⟨?_, (sameColorAll_iff h).1 hcol, n0, ?_⟩
      · by_cases hr : relax = true
        · exact Or.inl hr
        · rw [Bool.not_eq_true] at hr
          exact Or.inr (by have := hsz hr; omega)
      · rw [← hlen]; exact hc
    · rintro ⟨-, -, n0', hc⟩
      have he : n0' = n0 := (head_of_eq_range' hc).symm
      rw [he] at hc
      rw [hlen]
      exact hc

theorem dedup_length_iff {α : Type} [DecidableEq α] (l : List α) :
    (l.length = l.dedup.length) ↔ l.Nodup := by
  constructor
  · intro h
    have hsub := List.dedup_sublist l
    have : l.dedup = l := hsub.eq_of_length h.symm
    rw [← this]
    exact List.nodup_dedup l
  · intro h
    rw [h.dedup]

theorem is_valid_collection_true_iff {pl : Play} (h : pl.pieces ≠ []) (relax : Bool) :
    pl.is_valid_collection relax = true ↔ IsSetSpec pl.pieces relax := by
  unfold Play.is_valid_collection IsSetSpec
  split
  · rename_i hsz
    simp only [Bool.and_eq_true, Bool.not_eq_true', decide_eq_true_iff] at hsz
    constructor
    · intro hc; exact absurd hc (by simp)
    · intro hc
      rcases hc.1 with h1 | h1
      · rw [h1] at hsz; exact absurd hsz.1 (by simp)
      · omega
  split
  · rename_i hsz hnum
    simp only [Bool.not_eq_true'] at hnum
    constructor
    · intro hc; exact absurd hc (by simp)
    · intro hc
      rw [(sameNumberAll_iff h).2 hc.2.1] at hnum
      exact absurd hnum (by simp)
  · rename_i hsz hnum
    simp only [Bool.not_eq_true', Bool.not_eq_false] at hnum
    simp only [Bool.and_eq_true, Bool.not_eq_true', decide_eq_true_iff, not_and] at hsz
    rw [beq_iff_eq]
    have hmap : (pl.pieces.map Piece.color).length = pl.pieces.length := List.length_map _ _
    constructor
    · intro hc
      refine ⟨?_, (sameNumberAll_iff h).1 hnum, ?_⟩
      · by_cases hr : relax = true
        · exact Or.inl hr
        · rw [Bool.not_eq_true] at hr
          exact Or.inr (by have := hsz hr; omega)
      · exact (dedup_length_iff _).1 (by omega)
    · rintro ⟨-, -, hnd⟩
      have := (dedup_length_iff (pl.pieces.map Piece.color)).2 hnd
      omega

/-- C3 helper: on a nonempty play `is_valid` is the disjunction of the two
checks. -/
theorem is_valid_true_iff {pl : Play} (h : pl.pieces ≠ []) (relax : Bool) :
    pl.is_valid relax = some true ↔
      (pl.is_valid_straight relax = some true ∨ pl.is_valid_collection relax = true) := by
  unfold Play.is_valid
  obtain ⟨b, hb⟩ := is_valid_straight_isSome h relax
  rw [hb]
  cases b <;> simp

/-- C3: for every nonempty play and either mode, `Play.is_valid` returns
`True` (without raising) iff the pieces form a run or a set in the sense of
the spec; the straight check is evaluated first, the collection check
second, but the outcome is their disjunction. -/
theorem C3_is_valid_characterization (pl : Play) (relax : Bool)
    (h : pl.pieces ≠ []) :
    pl.is_valid relax = some true ↔
      (IsRunSpec pl.pieces relax ∨ IsSetSpec pl.pieces relax) := by
  rw [is_valid_true_iff h relax, is_valid_straight_true_iff h relax,
    is_valid_collection_true_iff h relax]

/-- C3 witness: the doctest run `{red-1, red-2, red-3}` instantiates the
characterization. -/
theorem C3_witness :
    (Play.make [⟨Color.red, 1⟩, ⟨Color.red, 2⟩, ⟨Color.red, 3⟩]).pieces ≠ [] ∧
      ((Play.make [⟨Color.red, 1⟩, ⟨Color.red, 2⟩, ⟨Color.red, 3⟩]).is_valid false = some true ↔
        (IsRunSpec (Play.make [⟨Color.red, 1⟩, ⟨Color.red, 2⟩, ⟨Color.red, 3⟩]).pieces false ∨
          IsSetSpec (Play.make [⟨Color.red, 1⟩, ⟨Color.red, 2⟩, ⟨Color.red, 3⟩]).pieces false)) :=
  ⟨by decide, C3_is_valid_characterization _ false (by decide)⟩

/-- C10: with the relaxed flag, validity checking of the empty play raises
(`IndexError` from `numbers[0]`): `is_valid_straight` skips the size
guard, passes the vacuous same-color check and indexes the empty numbers
list, and `is_valid` propagates the exception; the non-relaxed mode instead
returns `False` from the size guard. -/
theorem C10_empty_play_raises :
    (Play.make []).is_valid true = none ∧
      (Play.make []).is_valid_straight true = none ∧
      (Play.make []).is_valid false = some false := by
  refine ⟨rfl, rfl, rfl⟩

/-! ### Claim C5: order-independence of play construction -/

theorem pieceLe_antisymm_key {a b : Piece} (hab : pieceLe a b) (hba : pieceLe b a) :
    a.key = b.key := by
  rw [pieceLe_iff] at hab hba
  have h1 : a.key.1 = b.key.1 := by omega
  have h2 : a.key.2 = b.key.2 := by omega
  exact Prod.ext h1 h2

/-- Two sorted permutations of a common list without order ties are
identical (`pieceLe` is antisymmetric on such a list). -/
theorem sorted_perm_eq_of_noTies : ∀ {l₁ l₂ : List Piece}, List.Perm l₁ l₂ →
    List.Sorted pieceLe l₁ → List.Sorted pieceLe l₂ → NoOrderTies l₁ → l₁ = l₂ := by
  intro l₁
  induction l₁ with
  | nil => intro l₂ hp _ _ _; exact hp.nil_eq
  | cons a t₁ ih =>
    intro l₂ hp hs₁ hs₂ hnt
    match l₂ with
    | [] => exact absurd hp.symm.nil_eq (by simp)
    | b :: t₂ =>
      have hmem : a = b ∨ a ∈ t₂ := List.mem_cons.1 (hp.subset (List.mem_cons_self a t₁))
      have hab : a = b := by
        rcases hmem with h | h
        · exact h
        · have hba : pieceLe b a := (List.sorted_cons.1 hs₂).1 a h
          have hmem' : b = a ∨ b ∈ t₁ :=
            List.mem_cons.1 (hp.symm.subset (List.mem_cons_self b t₂))
          rcases hmem' with h' | h'
          · exact h'.symm
          · have hab' : pieceLe a b := (List.sorted_cons.1 hs₁).1 b h'
            exact hnt a (List.mem_cons_self a t₁) b (List.mem_cons_of_mem a h')
              (pieceLe_antisymm_key hab' hba)
      subst hab
      have hpt : List.Perm t₁ t₂ := hp.cons_inv
      have hnt' : NoOrderTies t₁ := fun x hx y hy =>
        hnt x (List.mem_cons_of_mem a hx) y (List.mem_cons_of_mem a hy)
      rw [ih hpt (List.sorted_cons.1 hs₁).2 (List.sorted_cons.1 hs₂).2 hnt']

theorem addAll_pieces_perm : ∀ (ps : List Piece) (pl : Play),
    List.Perm (pl.addAll ps).pieces (pl.pieces ++ ps) := by
  intro ps
  induction ps with
  | nil => intro pl; simp [Play.addAll]
  | cons p ps ih =>
    intro pl
    have h1 := ih (pl.add_piece p)
    have h2 : List.Perm (pl.add_piece p).pieces (pl.pieces ++ [p]) :=
      sortPieces_perm (pl.pieces ++ [p])
    have h3 : (pl.pieces ++ [p]) ++ ps = pl.pieces ++ (p :: ps) := by simp
    exact h3 ▸ (h1.trans (h2.append_right ps))

theorem addAll_sorted : ∀ (ps : List Piece) (pl : Play),
    List.Sorted pieceLe pl.pieces → List.Sorted pieceLe (pl.addAll ps).pieces := by
  intro ps
  induction ps with
  | nil => intro pl h; exact h
  | cons p ps ih =>
    intro pl _
    exact ih (pl.add_piece p) (sortPieces_sorted (pl.pieces ++ [p]))

theorem build_pieces_perm (init rest : List Piece) :
    List.Perm (Play.build init rest).pieces (init ++ rest) := by
  have h1 := addAll_pieces_perm rest (Play.make init)
  have h2 : List.Perm (Play.make init).pieces init := sortPieces_perm init
  exact h1.trans (h2.append_right rest)

theorem build_sorted (init rest : List Piece) :
    List.Sorted pieceLe (Play.build init rest).pieces :=
  addAll_sorted rest (Play.make init) (sortPieces_sorted init)

/-- C5 counterexample: the comparison of `Piece.__lt__` ties a blue and a
black piece of the same number (`"blue"[0] = "black"[0]`), the sort is
only stable, and so two plays built from the same two-element multiset in
the two different orders keep their insertion orders and are unequal. -/
theorem C5_counterexample :
    List.Perm [Piece.mk Color.blue 5, Piece.mk Color.black 5]
        [Piece.mk Color.black 5, Piece.mk Color.blue 5] ∧
      Play.build [] [Piece.mk Color.blue 5, Piece.mk Color.black 5] ≠
        Play.build [] [Piece.mk Color.black 5, Piece.mk Color.blue 5] := by
  constructor
  · exact List.Perm.swap _ _ []
  · decide

/-- C5 amended: over a multiset with no order-tied pair of distinct pieces
(no blue-k together with black-k), any two plays built from it — by the
constructor, by repeated `add_piece`, or any mix, in any order — are equal
and have equal hashes. -/
theorem C5_amended_order_independence (init1 rest1 init2 rest2 : List Piece)
    (hperm : List.Perm (init1 ++ rest1) (init2 ++ rest2))
    (hnt : NoOrderTies (init1 ++ rest1)) :
    Play.build init1 rest1 = Play.build init2 rest2 ∧
      playHash (Play.build init1 rest1) = playHash (Play.build init2 rest2) := by
  have hp : List.Perm (Play.build init1 rest1).pieces (Play.build init2 rest2).pieces :=
    ((build_pieces_perm init1 rest1).trans hperm).trans (build_pieces_perm init2 rest2).symm
  have hnt1 : NoOrderTies (Play.build init1 rest1).pieces := by
    intro x hx y hy
    have hsub := (build_pieces_perm init1 rest1).subset
    exact hnt x (hsub hx) y (hsub hy)
  have heq : (Play.build init1 rest1).pieces = (Play.build init2 rest2).pieces :=
    sorted_perm_eq_of_noTies hp (build_sorted init1 rest1) (build_sorted init2 rest2) hnt1
  have heqPlay : Play.build init1 rest1 = Play.build init2 rest2 := by
    cases hb1 : Play.build init1 rest1 with
    | mk ps1 =>
      cases hb2 : Play.build init2 rest2 with
      | mk ps2 =>
        rw [hb1, hb2] at heq
        simpa using heq
  exact ⟨heqPlay, by rw [heqPlay]⟩

/-! ### Board bookkeeping (claims C8, C9) -/

theorem countInvalid_append (l1 l2 : List Play) :
    countInvalid (l1 ++ l2) = countInvalid l1 + countInvalid l2 :=
  List.countP_append _ l1 l2

theorem countInvalid_set : ∀ (plays : List Play) (i : Nat) (pl pl' : Play),
    plays.get? i = some pl →
    countInvalid (plays.set i pl') + (if pl.is_validNP then 0 else 1) =
      countInvalid plays + (if pl'.is_validNP then 0 else 1) := by
  intro plays
  induction plays with
  | nil => intro i pl pl' h; simp at h
  | cons q rest ih =>
    intro i pl pl' h
    match i with
    | 0 =>
      rw [List.get?_cons_zero] at h
      obtain rfl := Option.some.inj h
      simp only [List.set, countInvalid, List.countP_cons]
      cases hq : q.is_validNP <;> cases hq' : pl'.is_validNP <;> simp [hq, hq']
    | Nat.succ j =>
      rw [List.get?_cons_succ] at h
      have := ih j pl pl' h
      simp only [List.set, countInvalid, List.countP_cons] at *
      cases hq : q.is_validNP <;> simp [hq] at * <;> omega

theorem flatten_set_perm : ∀ (plays : List Play) (i : Nat) (pl pl' : Play)
    (q : Piece), plays.get? i = some pl →
    List.Perm pl'.pieces (pl.pieces ++ [q]) →
    List.Perm ((plays.set i pl').map Play.pieces).flatten
      (((plays.map Play.pieces).flatten) ++ [q]) := by
  intro plays
  induction plays with
  | nil => intro i pl pl' q h; simp at h
  | cons p0 rest ih =>
    intro i pl pl' q h hperm
    match i with
    | 0 =>
      rw [List.get?_cons_zero] at h
      obtain rfl := Option.some.inj h
      simp only [List.set, List.map_cons, List.flatten_cons]
      have h1 : List.Perm (pl'.pieces ++ (rest.map Play.pieces).flatten)
          ((p0.pieces ++ [q]) ++ (rest.map Play.pieces).flatten) :=
        hperm.append_right _
      refine h1.trans ?_
      have h2 : (p0.pieces ++ [q]) ++ (rest.map Play.pieces).flatten =
          p0.pieces ++ ([q] ++ (rest.map Play.pieces).flatten) := by
        rw [List.append_assoc]
      rw [h2, List.append_assoc]
      refine List.Perm.append_left p0.pieces ?_
      exact List.perm_append_comm
    | Nat.succ j =>
      rw [List.get?_cons_succ] at h
      simp only [List.set, List.map_cons, List.flatten_cons]
      have h1 := ih j pl pl' q h hperm
      have h2 : p0.pieces ++ (rest.map Play.pieces).flatten ++ [q] =
          p0.pieces ++ ((rest.map Play.pieces).flatten ++ [q]) := by
        rw [List.append_assoc]
      rw [h2]
      exact List.Perm.append_left p0.pieces h1

theorem boardInv_empty : BoardInv Board.empty := by
  refine ⟨by simp [Board.empty], by simp [Board.empty, countInvalid], by simp [Board.empty]⟩

theorem boardInv_add_play {b : Board} (h : BoardInv b) {pl : Play}
    (hpl : List.Sorted pieceLe pl.pieces) : BoardInv (b.add_play pl) := by
  obtain ⟨hs, hc, hp⟩ := h
  refine ⟨?_, ?_, ?_⟩
  · intro q hq
    rcases List.mem_append.1 hq with h1 | h1
    · exact hs q h1
    · rw [List.mem_singleton.1 h1]; exact hpl
  · simp only [Board.add_play, countInvalid_append]
    rw [hc]
    cases hv : pl.is_validNP <;> simp [countInvalid, List.countP_cons, hv]
  · simp only [Board.add_play, List.map_append, List.flatten_append]
    simp only [List.map_cons, List.map_nil, List.flatten_cons, List.flatten_nil,
      List.append_nil]
    exact hp.append_right pl.pieces

theorem add_piece_some_inv {b b' : Board} {piece : Piece} {i : Nat}
    (h : BoardInv b) (hsome : b.add_piece piece i = some b') : BoardInv b' := by
  obtain ⟨hs, hc, hp⟩ := h
  unfold Board.add_piece at hsome
  cases hget : b.plays.get? i with
  | none => rw [hget] at hsome; simp at hsome
  | some pl =>
    rw [hget] at hsome
    simp only at hsome
    by_cases hraise : (pl.is_validNP && !(pl.add_piece piece).is_validNP) = true
    · rw [if_pos hraise] at hsome; simp at hsome
    · rw [if_neg hraise] at hsome
      cases hsome
      refine ⟨?_, ?_, ?_⟩
      · intro q hq
        rcases List.mem_or_eq_of_mem_set hq with h1 | h1
        · exact hs q h1
        · rw [h1]; exact sortPieces_sorted _
      · have hcs := countInvalid_set b.plays i pl (pl.add_piece piece) hget
        simp only
        rw [hc]
        cases hw : pl.is_validNP <;> cases hv : (pl.add_piece piece).is_validNP <;>
          simp [hw, hv] at hcs hraise ⊢ <;> omega
      · simp only
        have hplperm : List.Perm (pl.add_piece piece).pieces (pl.pieces ++ [piece]) :=
          sortPieces_perm _
        have hf := flatten_set_perm b.plays i pl (pl.add_piece piece) piece hget hplperm
        refine (hp.append_right [piece]).trans hf.symm

theorem boardInv_copy_eq {b : Board} (h : BoardInv b) : b.copy = b := by
  obtain ⟨hs, -, -⟩ := h
  unfold Board.copy
  have : b.plays.map Play.copy = b.plays := by
    rw [List.map_congr_left ?_]
    · exact b.plays.map_id
    · intro pl hpl
      show Play.make pl.pieces = pl
      unfold Play.make
      rw [sortPieces_of_sorted (hs pl hpl)]
  rw [this]

theorem reach_boardInv {b : Board} (h : Reach b) : BoardInv b := by
  induction h with
  | empty => exact boardInv_empty
  | add_play b l _ ih => exact boardInv_add_play ih (sortPieces_sorted l)
  | add_piece b b' piece i _ hsome ih => exact add_piece_some_inv ih hsome
  | copy b _ ih => rw [boardInv_copy_eq ih]; exact ih

/-- C8: along any sequence of board constructions the program performs
(`Board()`, `add_play` of freshly constructed plays, non-raising
`add_piece`, `copy`), the counter `num_patial_plays` equals the number of
plays that are invalid under the non-relaxed rules, and therefore
`Board.is_valid` holds iff every play on the board is valid. -/
theorem C8_counter_counts_invalid (b : Board) (h : Reach b) :
    b.num_patial_plays = (countInvalid b.plays : Int) ∧
      (b.is_valid = true ↔ ∀ pl ∈ b.plays, pl.is_validNP = true) := by
  obtain ⟨-, hc, -⟩ := reach_boardInv h
  refine ⟨hc, ?_⟩
  unfold Board.is_valid
  rw [hc]
  have : ((countInvalid b.plays : Int) == 0) = true ↔ countInvalid b.plays = 0 := by
    simp
  rw [this]
  unfold countInvalid
  rw [List.countP_eq_zero]
  constructor
  · intro hz pl hpl
    have := hz pl hpl
    simpa using this
  · intro hall pl hpl
    simpa using hall pl hpl

/-- C8 witness: a board holding one complete and one partial play. -/
theorem C8_witness :
    Reach ((Board.empty.add_play (Play.make [⟨Color.red, 1⟩, ⟨Color.red, 2⟩,
        ⟨Color.red, 3⟩])).add_play (Play.make [⟨Color.red, 5⟩])) ∧
      (((Board.empty.add_play (Play.make [⟨Color.red, 1⟩, ⟨Color.red, 2⟩,
          ⟨Color.red, 3⟩])).add_play (Play.make [⟨Color.red, 5⟩])).num_patial_plays =
        (countInvalid ((Board.empty.add_play (Play.make [⟨Color.red, 1⟩, ⟨Color.red, 2⟩,
          ⟨Color.red, 3⟩])).add_play (Play.make [⟨Color.red, 5⟩])).plays : Int)) := by
  have hr : Reach ((Board.empty.add_play (Play.make [⟨Color.red, 1⟩, ⟨Color.red, 2⟩,
      ⟨Color.red, 3⟩])).add_play (Play.make [⟨Color.red, 5⟩])) :=
    Reach.add_play _ _ (Reach.add_play _ _ Reach.empty)
  exact ⟨hr, (C8_counter_counts_invalid _ hr).1⟩

/-- C9: for an in-range play index, `Board.add_piece` raises exactly when
the targeted play was valid before the append and invalid after it; in
every non-raising case it appends the piece to that play and to the
flattened piece list and decrements the partial counter exactly when the
play went from invalid to valid. -/
theorem C9_add_piece_spec (b : Board) (piece : Piece) (i : Nat)
    (h : i < b.plays.length) :
    (b.add_piece piece i = none ↔
        ((b.plays.get ⟨i, h⟩).is_validNP = true ∧
          ((b.plays.get ⟨i, h⟩).add_piece piece).is_validNP = false)) ∧
      ∀ b', b.add_piece piece i = some b' →
        b'.plays = b.plays.set i ((b.plays.get ⟨i, h⟩).add_piece piece) ∧
        b'.pieces = b.pieces ++ [piece] ∧
        b'.num_patial_plays = b.num_patial_plays -
          (if (b.plays.get ⟨i, h⟩).is_validNP = false ∧
              ((b.plays.get ⟨i, h⟩).add_piece piece).is_validNP = true
            then 1 else 0) := by
  unfold Board.add_piece
  rw [List.get?_eq_get h]
  simp only
  cases hw : (b.plays.get ⟨i, h⟩).is_validNP <;>
    cases hv : ((b.plays.get ⟨i, h⟩).add_piece piece).is_validNP <;>
    simp [hw, hv]

/-- C9 witness: appending red-3 to the play `{red-1, red-2}` (play 0). -/
theorem C9_witness :
    0 < (Board.empty.add_play (Play.make [⟨Color.red, 1⟩, ⟨Color.red, 2⟩])).plays.length ∧
      ((Board.empty.add_play (Play.make [⟨Color.red, 1⟩, ⟨Color.red, 2⟩])).add_piece
          ⟨Color.red, 3⟩ 0 = none ↔
        (((Board.empty.add_play (Play.make [⟨Color.red, 1⟩, ⟨Color.red, 2⟩])).plays.get
            ⟨0, by decide⟩).is_validNP = true ∧
          (((Board.empty.add_play (Play.make [⟨Color.red, 1⟩, ⟨Color.red, 2⟩])).plays.get
            ⟨0, by decide⟩).add_piece ⟨Color.red, 3⟩).is_validNP = false)) :=
  ⟨by decide, (C9_add_piece_spec _ ⟨Color.red, 3⟩ 0 (by decide)).1⟩

/-! ### Total-function facts about the validity checks -/

theorem is_valid_isSome {pl : Play} (h : pl.pieces ≠ []) (relax : Bool) :
    ∃ b, pl.is_valid relax = some b := by
  obtain ⟨b, hb⟩ := is_valid_straight_isSome h relax
  unfold Play.is_valid
  rw [hb]
  cases b
  · exact ⟨_, rfl⟩
  · exact ⟨true, rfl⟩

theorem is_valid_false_isSome (pl : Play) : ∃ b, pl.is_valid false = some b := by
  cases hp : pl.pieces with
  | nil =>
    cases pl with
    | mk ps => cases hp; exact ⟨false, rfl⟩
  | cons q rest =>
    exact is_valid_isSome (by rw [hp]; simp) false

theorem is_valid_false_eq_validNP (pl : Play) :
    pl.is_valid false = some pl.is_validNP := by
  obtain ⟨b, hb⟩ := is_valid_false_isSome pl
  rw [hb]
  unfold Play.is_validNP
  rw [hb]

/-- When a play has at least three pieces the relaxed and the strict
check agree (the flag only relaxes the size guard). -/
theorem is_valid_relax_eq_of_three {pl : Play} (h3 : 3 ≤ pl.pieces.length) :
    pl.is_valid true = pl.is_valid false := by
  have hlt : ¬ pl.pieces.length < 3 := by omega
  unfold Play.is_valid Play.is_valid_straight Play.is_valid_collection
  simp [hlt]

theorem is_validNP_length {pl : Play} (h : pl.is_validNP = true) :
    3 ≤ pl.pieces.length := by
  by_contra hlt
  have hlt' : pl.pieces.length < 3 := by omega
  unfold Play.is_validNP Play.is_valid Play.is_valid_straight
    Play.is_valid_collection at h
  simp [hlt'] at h

/-- The sorted copy of a sorted play is the play itself. -/
theorem play_copy_eq {pl : Play} (h : List.Sorted pieceLe pl.pieces) :
    pl.copy = pl := by
  unfold Play.copy Play.make
  rw [sortPieces_of_sorted h]

/-! ### Neighbor generation never raises at a gated index -/

theorem mem_get_places {b : Board} {piece : Piece} {relax : Bool} {i : Nat}
    (h : i ∈ b.get_places_for_piece piece relax) :
    ∃ pl, b.plays.get? i = some pl ∧ pl.can_add_piece piece relax = true := by
  unfold Board.get_places_for_piece at h
  rw [List.mem_filterMap] at h
  obtain ⟨⟨j, pl⟩, hmem, hok⟩ := h
  by_cases hc : pl.can_add_piece piece relax = true
  · rw [if_pos hc] at hok
    cases hok
    refine ⟨pl, ?_, hc⟩
    have := List.mem_enum_iff_getElem?.1 hmem
    simpa [List.getElem?_eq_some_iff, List.get?_eq_getElem?] using this
  · rw [if_neg hc] at hok
    cases hok

theorem can_add_piece_valid {pl : Play} {piece : Piece} {relax : Bool}
    (hs : List.Sorted pieceLe pl.pieces)
    (h : pl.can_add_piece piece relax = true) :
    (pl.add_piece piece).is_valid relax = some true := by
  unfold Play.can_add_piece at h
  rw [play_copy_eq hs] at h
  have hne : (pl.add_piece piece).pieces ≠ [] := by
    show sortPieces (pl.pieces ++ [piece]) ≠ []
    intro hc
    have hp := (sortPieces_perm (pl.pieces ++ [piece])).length_eq
    rw [hc] at hp
    simp at hp
  obtain ⟨b, hb⟩ := is_valid_isSome hne relax
  rw [hb] at h
  cases b
  · simp at h
  · exact hb

/-- At an index reported by `get_places_for_piece` (any mode),
`Board.add_piece` cannot raise: the gate guarantees the appended play is
valid in the gating mode, and a play that was strictly valid before has at
least 3 pieces, hence at least 4 after, where the two modes agree. -/
theorem gated_add_piece_isSome {b : Board} {piece : Piece} {relax : Bool} {i : Nat}
    (hInv : BoardInv b) (hi : i ∈ b.get_places_for_piece piece relax) :
    ∃ nb, b.add_piece piece i = some nb := by
  obtain ⟨pl, hget, hcan⟩ := mem_get_places hi
  have hsorted : List.Sorted pieceLe pl.pieces :=
    hInv.1 pl (List.get?_mem hget)
  have hvalid := can_add_piece_valid hsorted hcan
  unfold Board.add_piece
  rw [hget]
  simp only
  have hnp : ¬ (pl.is_validNP = true ∧ (pl.add_piece piece).is_validNP = false) := by
    rintro ⟨hw, hv⟩
    have h3 : 3 ≤ pl.pieces.length := is_validNP_length hw
    have h4 : 3 ≤ (pl.add_piece piece).pieces.length := by
      unfold Play.add_piece
      have := (sortPieces_perm (pl.pieces ++ [piece])).length_eq
      simp only [List.length_append, List.length_singleton] at this
      simp only [this]
      omega
    have heq := is_valid_relax_eq_of_three h4
    have hfalse := is_valid_false_eq_validNP (pl.add_piece piece)
    rw [hv] at hfalse
    cases relax with
    | true => rw [heq, hfalse] at hvalid; cases hvalid
    | false => rw [hfalse] at hvalid; cases hvalid
  cases hw : pl.is_validNP <;> cases hv : (pl.add_piece piece).is_validNP <;>
    simp [hw, hv] at hnp ⊢

/-- Fields of a successful `add_piece`. -/
theorem add_piece_some_fields {b b' : Board} {piece : Piece} {i : Nat}
    (h : b.add_piece piece i = some b') :
    ∃ pl, b.plays.get? i = some pl ∧
      b'.plays = b.plays.set i (pl.add_piece piece) ∧
      b'.pieces = b.pieces ++ [piece] := by
  unfold Board.add_piece at h
  cases hget : b.plays.get? i with
  | none => rw [hget] at h; cases h
  | some pl =>
    rw [hget] at h
    simp only at h
    by_cases hraise : (pl.is_validNP && !(pl.add_piece piece).is_validNP) = true
    · rw [if_pos hraise] at h; cases h
    · rw [if_neg hraise] at h
      cases h
      exact ⟨pl, rfl, rfl, rfl⟩

/-- Every neighbor board satisfies the representation invariant and
extends the piece pool by the placed piece. -/
theorem mem_get_neighbors {b nb : Board} {piece : Piece} {relax : Bool}
    (hInv : BoardInv b) (h : nb ∈ b.get_neighbors piece relax) :
    BoardInv nb ∧ List.Perm nb.pieces (b.pieces ++ [piece]) := by
  unfold Board.get_neighbors at h
  rw [List.mem_filterMap] at h
  obtain ⟨i, hi, hadd⟩ := h
  rw [boardInv_copy_eq hInv] at hadd
  refine ⟨add_piece_some_inv hInv hadd, ?_⟩
  obtain ⟨pl, -, -, hpieces⟩ := add_piece_some_fields hadd
  rw [hpieces]

/-- The fallback candidate: a fresh singleton play appended to a copy. -/
theorem fallback_inv {b : Board} (hInv : BoardInv b) (piece : Piece) :
    BoardInv (b.copy.add_play (Play.make [piece])) ∧
      List.Perm (b.copy.add_play (Play.make [piece])).pieces (b.pieces ++ [piece]) := by
  rw [boardInv_copy_eq hInv]
  refine ⟨boardInv_add_play hInv (sortPieces_sorted [piece]), ?_⟩
  unfold Board.add_play
  simp only
  have : (Play.make [piece]).pieces = [piece] := rfl
  rw [this]


/-- C5 amended witness: `{red-1, red-2, red-3}` built by constructor in one
order and by piecewise appends in another order. -/
theorem C5_amended_witness :
    List.Perm ([Piece.mk Color.red 1, Piece.mk Color.red 2] ++ [Piece.mk Color.red 3])
        ([] ++ [Piece.mk Color.red 3, Piece.mk Color.red 1, Piece.mk Color.red 2]) ∧
      NoOrderTies ([Piece.mk Color.red 1, Piece.mk Color.red 2] ++ [Piece.mk Color.red 3]) ∧
      Play.build [Piece.mk Color.red 1, Piece.mk Color.red 2] [Piece.mk Color.red 3] =
        Play.build [] [Piece.mk Color.red 3, Piece.mk Color.red 1, Piece.mk Color.red 2] :=
  ⟨by decide, by decide,
    (C5_amended_order_independence _ _ _ _ (by decide) (by decide)).1⟩

/-! ### Invariants of the DFS loop (claims C1, C7) -/

theorem scanNeighbors_inv (input : List Piece) : ∀ (space : List Board)
    (node : SearchNode) (other : List Piece) (explored : List Board)
    (acc : List SearchNode) (st : SolverState)
    (hsp : ∀ nb ∈ space, BoardInv nb ∧ List.Perm (nb.pieces ++ other) input)
    (hexp : ExploredInv explored) (hacc : ∀ n ∈ acc, NodeInv input n),
    ExploredInv (scanNeighbors node other space explored acc st).1 ∧
      ∀ n ∈ (scanNeighbors node other space explored acc st).2.1, NodeInv input n := by
  intro space
  induction space with
  | nil =>
    intro node other explored acc st hsp hexp hacc
    exact ⟨hexp, hacc⟩
  | cons nb rest ih =>
    intro node other explored acc st hsp hexp hacc
    have hnb := hsp nb (List.mem_cons_self nb rest)
    have hrest : ∀ x ∈ rest, BoardInv x ∧ List.Perm (x.pieces ++ other) input :=
      fun x hx => hsp x (List.mem_cons_of_mem nb hx)
    rw [scanNeighbors]
    by_cases h1 : explored.any (fun e => Board.beq e nb) = true
    · rw [if_pos h1]
      exact ih node other explored acc _ hrest hexp hacc
    · rw [if_neg h1]
      by_cases h2 : 1 < nb.num_patial_plays
      · rw [if_pos h2]
        exact ih node other explored acc _ hrest hexp hacc
      · rw [if_neg h2]
        have hcount : countInvalid nb.plays ≤ 1 := by
          have hc := hnb.1.2.1
          rw [hc] at h2
          exact_mod_cast Int.not_lt.1 h2
        have hexp' : ExploredInv (nb :: explored) := by
          intro x hx
          rcases List.mem_cons.1 hx with h | h
          · rw [h]; exact ⟨hnb.1, hcount⟩
          · exact hexp x h
        by_cases h3 : 3 ≤ (if nb.is_valid then 0 else node.incomplete_depth + 1)
        · rw [if_pos h3]
          exact ih node other (nb :: explored) acc _ hrest hexp' hacc
        · rw [if_neg h3]
          have hnode' : NodeInv input
              (SearchNode.mk nb other (some node)
                (if nb.is_valid then 0 else node.incomplete_depth + 1)) := by
            refine ⟨hnb.1, hcount, hnb.2, ?_⟩
            intro hd
            by_cases hv : nb.is_valid = true
            · have hc := hnb.1.2.1
              unfold Board.is_valid at hv
              rw [hc] at hv
              simpa using hv
            · rw [Bool.not_eq_true] at hv
              rw [if_neg (by simp [hv])] at hd
              cases hd
          have hacc' : ∀ n ∈ (SearchNode.mk nb other (some node)
              (if nb.is_valid then 0 else node.incomplete_depth + 1)) :: acc,
              NodeInv input n := by
            intro n hn
            rcases List.mem_cons.1 hn with h | h
            · rw [h]; exact hnode'
            · exact hacc n h
          exact ih node other (nb :: explored) _ _ hrest hexp' hacc'

theorem scanPieces_inv (input : List Piece) : ∀ (cursor : List Piece)
    (node : SearchNode) (explored : List Board) (acc : List SearchNode)
    (st : SolverState)
    (hnode : NodeInv input node)
    (hcur : ∀ p ∈ cursor, p ∈ node.pieces)
    (hexp : ExploredInv explored) (hacc : ∀ n ∈ acc, NodeInv input n),
    ExploredInv (scanPieces node cursor explored acc st).1 ∧
      ∀ n ∈ (scanPieces node cursor explored acc st).2.1, NodeInv input n := by
  intro cursor
  induction cursor with
  | nil =>
    intro node explored acc st hnode hcur hexp hacc
    exact ⟨hexp, hacc⟩
  | cons piece rest ih =>
    intro node explored acc st hnode hcur hexp hacc
    have hpiece : piece ∈ node.pieces := hcur piece (List.mem_cons_self piece rest)
    have hInv : BoardInv node.board := hnode.1
    have hpoolperm :
        List.Perm ((node.board.pieces ++ [piece]) ++ node.pieces.erase piece) input := by
      have h1 : List.Perm node.pieces (piece :: node.pieces.erase piece) :=
        List.perm_cons_erase hpiece
      have h2 : (node.board.pieces ++ [piece]) ++ node.pieces.erase piece =
          node.board.pieces ++ ([piece] ++ node.pieces.erase piece) := by
        rw [List.append_assoc]
      rw [h2]
      refine List.Perm.trans ?_ hnode.2.2.1
      exact List.Perm.append_left node.board.pieces h1.symm
    have hsp : ∀ nb ∈ (if (node.board.get_neighbors piece true).isEmpty then
        [node.board.copy.add_play (Play.make [piece])]
        else node.board.get_neighbors piece true),
        BoardInv nb ∧ List.Perm (nb.pieces ++ node.pieces.erase piece) input := by
      intro nb hnb
      by_cases hemp : (node.board.get_neighbors piece true).isEmpty = true
      · rw [if_pos hemp] at hnb
        rcases List.mem_singleton.1 hnb with h
        obtain ⟨hb1, hb2⟩ := fallback_inv hInv piece
        rw [h]
        refine ⟨hb1, ?_⟩
        exact (hb2.append_right _).trans hpoolperm
      · rw [if_neg hemp] at hnb
        obtain ⟨hb1, hb2⟩ := mem_get_neighbors hInv hnb
        refine ⟨hb1, ?_⟩
        exact (hb2.append_right _).trans hpoolperm
    have hstep := scanNeighbors_inv input _ node (node.pieces.erase piece)
      explored acc st hsp hexp hacc
    rw [scanPieces]
    exact ih node _ _ _ hnode (fun p hp => hcur p (List.mem_cons_of_mem piece hp))
      hstep.1 hstep.2

theorem solveLoop_sound (input key : List Piece) : ∀ (fuel : Nat)
    (explored : List Board) (queue : List SearchNode) (st : SolverState)
    (hexp : ExploredInv explored) (hq : ∀ n ∈ queue, NodeInv input n),
    (∀ b, (solveLoop key fuel explored queue st).1 = .found b →
      (∀ pl ∈ b.plays, pl.is_validNP = true) ∧
        List.Perm (b.plays.map Play.pieces).flatten input) ∧
      ExploredInv (solveLoop key fuel explored queue st).2.2 := by
  intro fuel
  induction fuel with
  | zero =>
    intro explored queue st hexp hq
    rw [solveLoop]
    exact ⟨(fun _ hb => nomatch hb), hexp⟩
  | succ fuel ih =>
    intro explored queue st hexp hq
    match queue with
    | [] =>
      rw [solveLoop]
      exact ⟨(fun _ hb => nomatch hb), hexp⟩
    | node :: rest =>
      have hnode := hq node (List.mem_cons_self node rest)
      have hrest : ∀ n ∈ rest, NodeInv input n :=
        fun n hn => hq n (List.mem_cons_of_mem node hn)
      rw [solveLoop]
      by_cases hdone : (node.pieces.isEmpty && node.incomplete_depth == 0) = true
      · rw [if_pos hdone]
        simp only [Bool.and_eq_true, List.isEmpty_iff, beq_iff_eq] at hdone
        refine ⟨?_, hexp⟩
        intro b hb
        cases hb
        have hcount : countInvalid node.board.plays = 0 := hnode.2.2.2 hdone.2
        constructor
        · intro pl hpl
          have := List.countP_eq_zero.1 hcount pl hpl
          simpa using this
        · have h1 : List.Perm node.board.pieces input := by
            have := hnode.2.2.1
            rw [hdone.1] at this
            simpa using this
          exact (hnode.1.2.2.symm).trans h1
      · rw [if_neg hdone]
        have hstep := scanPieces_inv input node.pieces node explored []
          { st with nodes_explored := st.nodes_explored + 1 } hnode
          (fun p hp => hp) hexp (by intro n hn; cases hn)
        have hq' : ∀ n ∈ (scanPieces node node.pieces explored []
            { st with nodes_explored := st.nodes_explored + 1 }).2.1 ++ rest,
            NodeInv input n := by
          intro n hn
          rcases List.mem_append.1 hn with h | h
          · exact hstep.2 n h
          · exact hrest n h
        exact ih _ _ _ hstep.1 hq'

theorem lookup_mem {α β : Type} [BEq α] [LawfulBEq α] :
    ∀ (l : List (α × β)) (k : α) (v : β), List.lookup k l = some v → (k, v) ∈ l := by
  intro l
  induction l with
  | nil => intro k v h; cases h
  | cons e rest ih =>
    intro k v h
    rw [List.lookup] at h
    cases hk : (k == e.1) with
    | true =>
      simp only [hk] at h
      cases h
      have hke : k = e.1 := eq_of_beq hk
      rw [hke]
      exact List.mem_cons_self e rest
    | false =>
      simp only [hk] at h
      exact List.mem_cons_of_mem e (ih k v h)

/-- C1: whenever `solve` returns a board (rather than raising), under a
sound result cache every play of the board is valid under the non-relaxed
rules and the multiset of pieces in the board's plays is exactly the input
multiset.  (The at-least-3 hypothesis of the claim is harmless: with fewer
pieces `solve` raises.) -/
theorem C1_solve_sound (pieces : List Piece) (st : SolverState) (fuel : Nat)
    (b : Board) (hcs : CacheSound st) (h3 : 3 ≤ pieces.length)
    (hfound : (BoardSolver.solve pieces st fuel).1 = .found b) :
    (∀ pl ∈ b.plays, pl.is_validNP = true) ∧
      List.Perm (b.plays.map Play.pieces).flatten pieces := by
  unfold BoardSolver.solve at hfound
  simp only at hfound
  unfold BoardSolver.solveFull at hfound
  rw [if_neg (by omega)] at hfound
  cases hlook : List.lookup pieces st.solver_cache with
  | some entry =>
    rw [hlook] at hfound
    cases entry with
    | none => simp at hfound
    | some b0 =>
      simp only at hfound
      cases hfound
      have hmem := lookup_mem st.solver_cache pieces (some b) hlook
      exact hcs (pieces, some b) hmem b rfl
  | none =>
    rw [hlook] at hfound
    simp only at hfound
    by_cases hfes : (!BoardSolver.is_board_fesable pieces) = true
    · rw [if_pos hfes] at hfound
      cases hfound
    · rw [if_neg hfes] at hfound
      have hroot : ∀ n ∈ [SearchNode.mk Board.empty pieces none 0], NodeInv pieces n := by
        intro n hn
        rcases List.mem_singleton.1 hn with h
        rw [h]
        refine ⟨boardInv_empty, ?_, ?_, ?_⟩
        · simp [SearchNode.board, Board.empty, countInvalid]
        · simp [SearchNode.board, SearchNode.pieces, Board.empty]
        · intro _
          simp [SearchNode.board, Board.empty, countInvalid]
      have hsound := solveLoop_sound pieces pieces fuel []
        [SearchNode.mk Board.empty pieces none 0]
        { st with
          solver_cache := (pieces, none) :: st.solver_cache
          boards_explored := st.boards_explored + 1 }
        (by intro x hx; cases hx) hroot
      exact hsound.1 b hfound

/-- C1 witness: solving `{red-1, red-2, red-3}` from the empty state. -/
theorem C1_witness :
    CacheSound SolverState.empty ∧
      3 ≤ ([Piece.mk Color.red 1, Piece.mk Color.red 2, Piece.mk Color.red 3] : List Piece).length ∧
      (BoardSolver.solve [Piece.mk Color.red 1, Piece.mk Color.red 2, Piece.mk Color.red 3]
          SolverState.empty 100).1 =
        .found (Board.mk [Play.mk [Piece.mk Color.red 1, Piece.mk Color.red 2,
          Piece.mk Color.red 3]] [Piece.mk Color.red 3, Piece.mk Color.red 2,
          Piece.mk Color.red 1] 0) ∧
      (∀ pl ∈ (Board.mk [Play.mk [Piece.mk Color.red 1, Piece.mk Color.red 2,
          Piece.mk Color.red 3]] [Piece.mk Color.red 3, Piece.mk Color.red 2,
          Piece.mk Color.red 1] 0).plays, pl.is_validNP = true) := by
  have hcs : CacheSound SolverState.empty := by
    intro e he b hb; cases he
  refine ⟨hcs, ?_, ?_, ?_⟩
  · decide
  · decide
  · exact (C1_solve_sound
      [Piece.mk Color.red 1, Piece.mk Color.red 2, Piece.mk Color.red 3]
      SolverState.empty 100
      (Board.mk [Play.mk [Piece.mk Color.red 1, Piece.mk Color.red 2,
        Piece.mk Color.red 3]] [Piece.mk Color.red 3, Piece.mk Color.red 2,
        Piece.mk Color.red 1] 0)
      hcs (by decide) (by decide)).1

/-- C7: every board that a `solve` call adds to its explored set has at
most one play that is invalid under the non-relaxed rules.  (Every search
node pushed onto the DFS stack carries a board that was added to the
explored set in the same step, except the root node, whose board is empty;
so the bound covers all pushed nodes as well.) -/
theorem C7_explored_at_most_one_invalid (pieces : List Piece) (st : SolverState)
    (fuel : Nat) :
    ∀ b ∈ (BoardSolver.solveFull pieces st fuel).2.2, countInvalid b.plays ≤ 1 := by
  unfold BoardSolver.solveFull
  by_cases h3 : pieces.length < 3
  · rw [if_pos h3]
    intro b hb
    cases hb
  · rw [if_neg h3]
    cases hlook : List.lookup pieces st.solver_cache with
    | some entry =>
      cases entry <;> intro b hb <;> cases hb
    | none =>
      simp only
      by_cases hfes : (!BoardSolver.is_board_fesable pieces) = true
      · rw [if_pos hfes]
        intro b hb
        cases hb
      · rw [if_neg hfes]
        have hroot : ∀ n ∈ [SearchNode.mk Board.empty pieces none 0], NodeInv pieces n := by
          intro n hn
          rcases List.mem_singleton.1 hn with h
          rw [h]
          refine ⟨boardInv_empty, ?_, ?_, ?_⟩
          · simp [SearchNode.board, Board.empty, countInvalid]
          · simp [SearchNode.board, SearchNode.pieces, Board.empty]
          · intro _
            simp [SearchNode.board, Board.empty, countInvalid]
        have hsound := solveLoop_sound pieces pieces fuel []
          [SearchNode.mk Board.empty pieces none 0]
          { st with
            solver_cache := (pieces, none) :: st.solver_cache
            boards_explored := st.boards_explored + 1 }
          (by intro x hx; cases hx) hroot
        intro b hb
        exact (hsound.2 b hb).2

/-- C7 witness: the explored set of solving `{red-1, red-2, red-3}`
contains the singleton-play board `[[red-3]]`, which has one partial
play. -/
theorem C7_witness :
    Board.mk [Play.mk [Piece.mk Color.red 3]] [Piece.mk Color.red 3] 1 ∈
        (BoardSolver.solveFull [Piece.mk Color.red 1, Piece.mk Color.red 2,
          Piece.mk Color.red 3] SolverState.empty 100).2.2 ∧
      countInvalid (Board.mk [Play.mk [Piece.mk Color.red 3]]
        [Piece.mk Color.red 3] 1).plays ≤ 1 :=
  ⟨by decide,
    C7_explored_at_most_one_invalid [Piece.mk Color.red 1, Piece.mk Color.red 2,
      Piece.mk Color.red 3] SolverState.empty 100 _ (by decide)⟩

/-! ### Claim C4: caching across permuted calls -/

theorem solveLoop_found_lookup (key : List Piece) : ∀ (fuel : Nat)
    (explored : List Board) (queue : List SearchNode) (st : SolverState)
    (b : Board), (solveLoop key fuel explored queue st).1 = .found b →
    List.lookup key ((solveLoop key fuel explored queue st).2.1).solver_cache =
      some (some b) := by
  intro fuel
  induction fuel with
  | zero =>
    intro explored queue st b h
    rw [solveLoop] at *
    cases h
  | succ fuel ih =>
    intro explored queue st b h
    match queue with
    | [] =>
      rw [solveLoop] at *
      cases h
    | node :: rest =>
      rw [solveLoop] at h ⊢
      by_cases hdone : (node.pieces.isEmpty && node.incomplete_depth == 0) = true
      · rw [if_pos hdone] at h ⊢
        cases h
        simp [List.lookup]
      · rw [if_neg hdone] at h ⊢
        exact ih _ _ _ b h

/-- After a successful `solve`, the unsorted input tuple is bound to the
returned board in the result cache (and the input had length at least
3). -/
theorem solve_found_lookup (pieces : List Piece) (st : SolverState) (fuel : Nat)
    (b : Board) (h : (BoardSolver.solve pieces st fuel).1 = .found b) :
    List.lookup pieces ((BoardSolver.solve pieces st fuel).2).solver_cache =
        some (some b) ∧
      3 ≤ pieces.length := by
  unfold BoardSolver.solve at *
  simp only at h ⊢
  unfold BoardSolver.solveFull at *
  by_cases h3 : pieces.length < 3
  · rw [if_pos h3] at h
    cases h
  · rw [if_neg h3] at h ⊢
    refine ⟨?_, by omega⟩
    cases hlook : List.lookup pieces st.solver_cache with
    | some entry =>
      rw [hlook] at h
      cases entry with
      | none => simp at h
      | some b0 =>
        simp only at h ⊢
        cases h
        exact hlook
    | none =>
      rw [hlook] at h
      simp only at h ⊢
      by_cases hfes : (!BoardSolver.is_board_fesable pieces) = true
      · rw [if_pos hfes] at h
        cases h
      · rw [if_neg hfes] at h ⊢
        exact solveLoop_found_lookup pieces fuel _ _ _ b h

/-- C4 amended: a repeat `solve` call with the identical input list (same
order) is answered from the result cache: it returns the same board, does
not touch the explored-node counter, and records one cache hit.  Only the
identical tuple hits the cache — the key is the unsorted input tuple, so a
mere permutation of the multiset is a different key (see the
counterexample). -/
theorem C4_amended_identical_call_cached (pieces : List Piece)
    (st : SolverState) (fuel fuel2 : Nat) (b : Board)
    (h : (BoardSolver.solve pieces st fuel).1 = .found b) :
    (BoardSolver.solve pieces ((BoardSolver.solve pieces st fuel).2) fuel2).1 =
        .found b ∧
      ((BoardSolver.solve pieces ((BoardSolver.solve pieces st fuel).2) fuel2).2).nodes_explored =
        ((BoardSolver.solve pieces st fuel).2).nodes_explored ∧
      ((BoardSolver.solve pieces ((BoardSolver.solve pieces st fuel).2) fuel2).2).board_cache_hits =
        ((BoardSolver.solve pieces st fuel).2).board_cache_hits + 1 := by
  obtain ⟨hlook, h3⟩ := solve_found_lookup pieces st fuel b h
  set st1 := (BoardSolver.solve pieces st fuel).2 with hst1
  unfold BoardSolver.solve BoardSolver.solveFull
  rw [if_neg (by omega), hlook]
  exact ⟨rfl, rfl, rfl⟩

/-- C4 amended witness: the second identical call for `{red-1, red-2,
red-3}`. -/
theorem C4_amended_witness :
    (BoardSolver.solve [Piece.mk Color.red 1, Piece.mk Color.red 2,
        Piece.mk Color.red 3] SolverState.empty 100).1 =
      .found (Board.mk [Play.mk [Piece.mk Color.red 1, Piece.mk Color.red 2,
        Piece.mk Color.red 3]] [Piece.mk Color.red 3, Piece.mk Color.red 2,
        Piece.mk Color.red 1] 0) ∧
    (BoardSolver.solve [Piece.mk Color.red 1, Piece.mk Color.red 2,
        Piece.mk Color.red 3]
        ((BoardSolver.solve [Piece.mk Color.red 1, Piece.mk Color.red 2,
          Piece.mk Color.red 3] SolverState.empty 100).2) 100).1 =
      .found (Board.mk [Play.mk [Piece.mk Color.red 1, Piece.mk Color.red 2,
        Piece.mk Color.red 3]] [Piece.mk Color.red 3, Piece.mk Color.red 2,
        Piece.mk Color.red 1] 0) :=
  ⟨by decide,
    (C4_amended_identical_call_cached
      [Piece.mk Color.red 1, Piece.mk Color.red 2, Piece.mk Color.red 3]
      SolverState.empty 100 100
      (Board.mk [Play.mk [Piece.mk Color.red 1, Piece.mk Color.red 2,
        Piece.mk Color.red 3]] [Piece.mk Color.red 3, Piece.mk Color.red 2,
        Piece.mk Color.red 1] 0)
      (by decide)).1⟩

/-- C4 counterexample: two `solve` calls on permutations of the same
multiset both succeed (with boards that are equal in the sense of
`Board.__eq__`, which compares the play lists), but the second call is not
answered from the result cache: the cache key `tuple(pieces)` is not
sorted, the permuted tuple is a fresh key, and the DFS re-runs — the
explored-node counter rises from 4 to 8. -/
theorem C4_counterexample :
    List.Perm [Piece.mk Color.red 3, Piece.mk Color.red 2, Piece.mk Color.red 1]
        [Piece.mk Color.red 1, Piece.mk Color.red 2, Piece.mk Color.red 3] ∧
      ((BoardSolver.solve [Piece.mk Color.red 1, Piece.mk Color.red 2,
          Piece.mk Color.red 3] SolverState.empty 100).2).nodes_explored = 4 ∧
      Board.beq
        (Board.mk [Play.mk [Piece.mk Color.red 1, Piece.mk Color.red 2,
          Piece.mk Color.red 3]] [Piece.mk Color.red 3, Piece.mk Color.red 2,
          Piece.mk Color.red 1] 0)
        (Board.mk [Play.mk [Piece.mk Color.red 1, Piece.mk Color.red 2,
          Piece.mk Color.red 3]] [Piece.mk Color.red 1, Piece.mk Color.red 2,
          Piece.mk Color.red 3] 0) = true ∧
      (BoardSolver.solve [Piece.mk Color.red 3, Piece.mk Color.red 2,
          Piece.mk Color.red 1]
          ((BoardSolver.solve [Piece.mk Color.red 1, Piece.mk Color.red 2,
            Piece.mk Color.red 3] SolverState.empty 100).2) 100).1 =
        .found (Board.mk [Play.mk [Piece.mk Color.red 1, Piece.mk Color.red 2,
          Piece.mk Color.red 3]] [Piece.mk Color.red 1, Piece.mk Color.red 2,
          Piece.mk Color.red 3] 0) ∧
      ((BoardSolver.solve [Piece.mk Color.red 3, Piece.mk Color.red 2,
          Piece.mk Color.red 1]
          ((BoardSolver.solve [Piece.mk Color.red 1, Piece.mk Color.red 2,
            Piece.mk Color.red 3] SolverState.empty 100).2) 100).2).nodes_explored = 8 := by
  refine ⟨by decide, by decide, by decide, by decide, by decide⟩

/-! ### Claim C6: the feasibility pre-filter -/

theorem presentIn_iff (pieces : List Piece) (c : Color) (n : Nat) :
    presentIn pieces c n = true ↔ ∃ q ∈ pieces, q.color = c ∧ q.number = n := by
  unfold presentIn
  rw [List.any_eq_true]
  constructor
  · rintro ⟨q, hq, hqc⟩
    simp only [Bool.and_eq_true, beq_iff_eq] at hqc
    exact ⟨q, hq, hqc⟩
  · rintro ⟨q, hq, hc, hn⟩
    exact ⟨q, hq, by simp [hc, hn]⟩

theorem two_others_table (fr fb fy fk : Bool) (c0 : Color) :
    colorTable fr fb fy fk c0 = true →
    (3 ≤ ([Color.red, Color.blue, Color.yellow, Color.black].countP
        (colorTable fr fb fy fk)) ↔
      ∃ c1 c2, c1 ≠ c0 ∧ c2 ≠ c0 ∧ c1 ≠ c2 ∧
        colorTable fr fb fy fk c1 = true ∧ colorTable fr fb fy fk c2 = true) := by
  cases fr <;> cases fb <;> cases fy <;> cases fk <;> cases c0 <;> decide

theorem presentTable_eq (pieces : List Piece) (n : Nat) :
    (fun c => presentIn pieces c n) =
      colorTable (presentIn pieces Color.red n) (presentIn pieces Color.blue n)
        (presentIn pieces Color.yellow n) (presentIn pieces Color.black n) := by
  funext c
  cases c <;> rfl

theorem straightFesable_iff {pieces : List Piece} {p : Piece} (hwfp : p.wf)
    (hwfall : ∀ q ∈ pieces, q.wf) :
    straightFesable pieces p = true ↔ hasRunNeighbor pieces p := by
  unfold straightFesable hasRunNeighbor
  simp only [Bool.or_eq_true, Bool.and_eq_true, Bool.not_eq_true', beq_eq_false_iff_ne,
    presentIn_iff]
  constructor
  · rintro (⟨hne, q, hq, hc, hn⟩ | ⟨hne, q, hq, hc, hn⟩)
    · refine ⟨q, hq, hc, Or.inl ?_⟩
      have := hwfp.1
      omega
    · exact ⟨q, hq, hc, Or.inr hn⟩
  · rintro ⟨q, hq, hc, hn | hn⟩
    · left
      have hqwf := (hwfall q hq).1
      refine ⟨by omega, q, hq, hc, by omega⟩
    · right
      have hqwf := (hwfall q hq).2
      refine ⟨by omega, q, hq, hc, hn⟩

theorem combinationFesable_iff {pieces : List Piece} {p : Piece} (hp : p ∈ pieces) :
    combinationFesable pieces p = true ↔ hasTwoOtherColors pieces p := by
  have hself : presentIn pieces p.color p.number = true :=
    (presentIn_iff pieces p.color p.number).2 ⟨p, hp, rfl, rfl⟩
  have htab := presentTable_eq pieces p.number
  have hc0 : colorTable (presentIn pieces Color.red p.number)
      (presentIn pieces Color.blue p.number) (presentIn pieces Color.yellow p.number)
      (presentIn pieces Color.black p.number) p.color = true := by
    cases hc : p.color <;> rw [hc] at hself <;> exact hself
  have htwo := two_others_table (presentIn pieces Color.red p.number)
    (presentIn pieces Color.blue p.number) (presentIn pieces Color.yellow p.number)
    (presentIn pieces Color.black p.number) p.color hc0
  have hcv : ∀ c, colorTable (presentIn pieces Color.red p.number)
      (presentIn pieces Color.blue p.number) (presentIn pieces Color.yellow p.number)
      (presentIn pieces Color.black p.number) c = presentIn pieces c p.number := by
    intro c
    cases c <;> rfl
  unfold combinationFesable
  rw [decide_eq_true_iff]
  rw [htab, htwo]
  unfold hasTwoOtherColors
  constructor
  · rintro ⟨c1, c2, h1, h2, h12, hv1, hv2⟩
    rw [hcv] at hv1 hv2
    exact ⟨c1, c2, h1, h2, h12, (presentIn_iff pieces c1 p.number).1 hv1,
      (presentIn_iff pieces c2 p.number).1 hv2⟩
  · rintro ⟨c1, c2, h1, h2, h12, hv1, hv2⟩
    refine ⟨c1, c2, h1, h2, h12, ?_, ?_⟩
    · rw [hcv]; exact (presentIn_iff pieces c1 p.number).2 hv1
    · rw [hcv]; exact (presentIn_iff pieces c2 p.number).2 hv2

/-- C6: `_is_board_fesable` returns `True` iff every piece of the pool has
a same-color neighbor at its number plus or minus one in the pool, or at
least two other colors of its number present (three same-number
distinct-color pieces counting itself); and when it returns `False`,
`solve` raises without exploring a single search node.  (In the source the
combination check is skipped for pieces already marked straight-feasible;
the final disjunction makes that skip observationally irrelevant.) -/
theorem C6_feasibility_filter (pieces : List Piece) (st : SolverState)
    (fuel : Nat) (hwf : ∀ p ∈ pieces, p.wf) :
    (BoardSolver.is_board_fesable pieces = true ↔
        ∀ p ∈ pieces, hasRunNeighbor pieces p ∨ hasTwoOtherColors pieces p) ∧
      (BoardSolver.is_board_fesable pieces = false →
        List.lookup pieces st.solver_cache = none →
        3 ≤ pieces.length →
        (BoardSolver.solve pieces st fuel).1 = .noSolution ∧
          ((BoardSolver.solve pieces st fuel).2).nodes_explored =
            st.nodes_explored) := by
  constructor
  · unfold BoardSolver.is_board_fesable
    rw [List.all_eq_true]
    constructor
    · intro h p hp
      have := h p hp
      rw [Bool.or_eq_true, straightFesable_iff (hwf p hp) hwf,
        combinationFesable_iff hp] at this
      exact this
    · intro h p hp
      rw [Bool.or_eq_true, straightFesable_iff (hwf p hp) hwf,
        combinationFesable_iff hp]
      exact h p hp
  · intro hfes hlook h3
    unfold BoardSolver.solve BoardSolver.solveFull
    rw [if_neg (by omega), hlook]
    simp only
    rw [if_pos (by simp [hfes])]
    exact ⟨rfl, rfl⟩

/-- C6 witness: `{red-1, yellow-1, blue-2}` (a doctest example) is
infeasible, and `solve` rejects it without search. -/
theorem C6_witness :
    (∀ p ∈ [Piece.mk Color.red 1, Piece.mk Color.yellow 1, Piece.mk Color.blue 2],
        p.wf) ∧
      BoardSolver.is_board_fesable [Piece.mk Color.red 1, Piece.mk Color.yellow 1,
        Piece.mk Color.blue 2] = false ∧
      (BoardSolver.solve [Piece.mk Color.red 1, Piece.mk Color.yellow 1,
        Piece.mk Color.blue 2] SolverState.empty 10).1 = .noSolution ∧
      ((BoardSolver.solve [Piece.mk Color.red 1, Piece.mk Color.yellow 1,
        Piece.mk Color.blue 2] SolverState.empty 10).2).nodes_explored =
        SolverState.empty.nodes_explored := by
  refine ⟨by decide, by decide, ?_⟩
  have h := (C6_feasibility_filter [Piece.mk Color.red 1, Piece.mk Color.yellow 1,
    Piece.mk Color.blue 2] SolverState.empty 10 (by decide)).2
    (by decide) (by decide) (by decide)
  exact h

/-! ### The cache-soundness hypothesis of claim C1 is self-maintained -/

theorem scanNeighbors_cache : ∀ (space : List Board) (node : SearchNode)
    (other : List Piece) (explored : List Board) (acc : List SearchNode)
    (st : SolverState),
    ((scanNeighbors node other space explored acc st).2.2).solver_cache =
      st.solver_cache := by
  intro space
  induction space with
  | nil => intro node other explored acc st; rfl
  | cons nb rest ih =>
    intro node other explored acc st
    rw [scanNeighbors]
    by_cases h1 : explored.any (fun e => Board.beq e nb) = true
    · rw [if_pos h1]; rw [ih]
    · rw [if_neg h1]
      by_cases h2 : 1 < nb.num_patial_plays
      · rw [if_pos h2]; rw [ih]
      · rw [if_neg h2]
        by_cases h3 : 3 ≤ (if nb.is_valid then 0 else node.incomplete_depth + 1)
        · rw [if_pos h3]; rw [ih]
        · rw [if_neg h3]; rw [ih]

theorem scanPieces_cache : ∀ (cursor : List Piece) (node : SearchNode)
    (explored : List Board) (acc : List SearchNode) (st : SolverState),
    ((scanPieces node cursor explored acc st).2.2).solver_cache =
      st.solver_cache := by
  intro cursor
  induction cursor with
  | nil => intro node explored acc st; rfl
  | cons piece rest ih =>
    intro node explored acc st
    rw [scanPieces]
    rw [ih, scanNeighbors_cache]

theorem cacheSound_of_eq {st st' : SolverState}
    (h : st'.solver_cache = st.solver_cache) (hcs : CacheSound st) :
    CacheSound st' := by
  intro e he b hb
  rw [h] at he
  exact hcs e he b hb

theorem solveLoop_cacheSound (input : List Piece) : ∀ (fuel : Nat)
    (explored : List Board) (queue : List SearchNode) (st : SolverState)
    (hcs : CacheSound st) (hexp : ExploredInv explored)
    (hq : ∀ n ∈ queue, NodeInv input n),
    CacheSound ((solveLoop input fuel explored queue st).2.1) := by
  intro fuel
  induction fuel with
  | zero =>
    intro explored queue st hcs hexp hq
    rw [solveLoop]
    exact hcs
  | succ fuel ih =>
    intro explored queue st hcs hexp hq
    match queue with
    | [] =>
      rw [solveLoop]
      exact hcs
    | node :: rest =>
      have hnode := hq node (List.mem_cons_self node rest)
      have hrest : ∀ n ∈ rest, NodeInv input n :=
        fun n hn => hq n (List.mem_cons_of_mem node hn)
      rw [solveLoop]
      by_cases hdone : (node.pieces.isEmpty && node.incomplete_depth == 0) = true
      · rw [if_pos hdone]
        simp only [Bool.and_eq_true, List.isEmpty_iff, beq_iff_eq] at hdone
        intro e he b hb
        rcases List.mem_cons.1 he with h | h
        · rw [h] at hb
          simp only at hb
          cases hb
          have hcount : countInvalid node.board.plays = 0 := hnode.2.2.2 hdone.2
          rw [h]
          constructor
          · intro pl hpl
            have := List.countP_eq_zero.1 hcount pl hpl
            simpa using this
          · have h1 : List.Perm node.board.pieces input := by
              have := hnode.2.2.1
              rw [hdone.1] at this
              simpa using this
            exact (hnode.1.2.2.symm).trans h1
        · exact hcs e h b hb
      · rw [if_neg hdone]
        have hstep := scanPieces_inv input node.pieces node explored []
          { st with nodes_explored := st.nodes_explored + 1 } hnode
          (fun p hp => hp) hexp (by intro n hn; cases hn)
        have hq' : ∀ n ∈ (scanPieces node node.pieces explored []
            { st with nodes_explored := st.nodes_explored + 1 }).2.1 ++ rest,
            NodeInv input n := by
          intro n hn
          rcases List.mem_append.1 hn with h | h
          · exact hstep.2 n h
          · exact hrest n h
        refine ih _ _ _ ?_ hstep.1 hq'
        exact cacheSound_of_eq (by rw [scanPieces_cache]) hcs

/-- The cache stays sound across any `solve` call: failures are recorded
as `None`, and a success is recorded under the input tuple with a board
the search itself certified. -/
theorem solve_preserves_cacheSound (pieces : List Piece) (st : SolverState)
    (fuel : Nat) (hcs : CacheSound st) :
    CacheSound ((BoardSolver.solve pieces st fuel).2) := by
  unfold BoardSolver.solve BoardSolver.solveFull
  by_cases h3 : pieces.length < 3
  · rw [if_pos h3]
    exact hcs
  · rw [if_neg h3]
    cases hlook : List.lookup pieces st.solver_cache with
    | some entry =>
      cases entry with
      | none => exact hcs
      | some b0 => exact hcs
    | none =>
      simp only
      have hcs' : CacheSound { st with solver_cache := (pieces, none) :: st.solver_cache } := by
        intro e he b hb
        rcases List.mem_cons.1 he with h | h
        · rw [h] at hb; cases hb
        · exact hcs e h b hb
      by_cases hfes : (!BoardSolver.is_board_fesable pieces) = true
      · rw [if_pos hfes]
        exact hcs'
      · rw [if_neg hfes]
        have hroot : ∀ n ∈ [SearchNode.mk Board.empty pieces none 0], NodeInv pieces n := by
          intro n hn
          rcases List.mem_singleton.1 hn with h
          rw [h]
          refine ⟨boardInv_empty, ?_, ?_, ?_⟩
          · simp [SearchNode.board, Board.empty, countInvalid]
          · simp [SearchNode.board, SearchNode.pieces, Board.empty]
          · intro _
            simp [SearchNode.board, Board.empty, countInvalid]
        exact solveLoop_cacheSound pieces fuel []
          [SearchNode.mk Board.empty pieces none 0] _
          (by
            intro e he b hb
            rcases List.mem_cons.1 he with h | h
            · rw [h] at hb; cases hb
            · exact hcs e h b hb)
          (by intro x hx; cases hx) hroot

/-- With fewer than three pieces `solve` raises immediately. -/
theorem solve_short_input (pieces : List Piece) (st : SolverState) (fuel : Nat)
    (h : pieces.length < 3) :
    (BoardSolver.solve pieces st fuel).1 = .noSolution := by
  unfold BoardSolver.solve BoardSolver.solveFull
  rw [if_pos h]

end Rummikub
